import Mathlib

/-!
Shallow embedding of the `tokens` tokenizer (src/src/lib.rs).

Buffers are modelled as `List Char`; one list element models one byte of the
Rust `&str` (all classification-relevant characters are ASCII, and every
length/index the source computes is a byte offset at a character boundary).
Rust panics (failed `assert!`, `expect`, `unwrap`, explicit `panic!`) are
modelled by returning `none`.
-/

namespace Tokens

/-- The six lexical categories, from `enum TokenCategory` in the source. -/
inductive TokenCategory where
  | Sequence
  | Alphanumeric
  | Whitespace
  | StringLiteral
  | Symbol
  | Unknown
deriving DecidableEq

/-- `struct Token` from the source: a fragment of the buffer plus position
metadata. -/
structure Token where
  string : List Char
  buffer : List Char
  line_start : Nat
  index : Nat
  row : Nat
  col : Nat
  category : TokenCategory
deriving DecidableEq

/-- the single-quote character -/
def singleQuote : Char := Char.ofNat 39

/-- the double-quote character -/
def doubleQuote : Char := Char.ofNat 34

/-- The fixed ordered table of multi-character sequences from `get_sequence`. -/
def sequences : List (List Char) :=
  [['=', '=', '='], ['<', '='], ['>', '='], ['!', '='], ['=', '='],
   ['-', '>'], ['=', '>'], ['*', '='], ['+', '='], ['/', '='], ['%', '='],
   [':', ':']]

/-- `get_sequence` from the source: the first table entry that is a
prefix of `s`, if any. -/
def get_sequence (s : List Char) : Option (List Char) :=
  sequences.find? (fun seq => seq.isPrefixOf s)

/-- `is_alphanumeric` from the source: membership in the literal ASCII
letter/digit alphabet. -/
def is_alphanumeric (c : Char) : Bool :=
  ("abcdefghijklmnopqrstuvwxyzABCDEFGHIJKLMNOPQRSTUVWXYZ0123456789".toList).contains c

/-- `is_symbol` from the source: membership in the literal symbol set
`()\x7b\x7d<>[]:;,.@!/\|-+=*?&%$#`. -/
def is_symbol (c : Char) : Bool :=
  ("()\x7b\x7d<>[]:;,.@!/\\|-+=*?&%$#".toList).contains c

/-- All indices at which character `c` occurs in a list, in increasing order;
models Rust `str::match_indices` with a single-character pattern. -/
def indicesOf (c : Char) : List Char → List Nat
  | [] => []
  | x :: xs =>
    if x = c then 0 :: (indicesOf c xs).map (· + 1)
    else (indicesOf c xs).map (· + 1)

/-- Index of the last occurrence of `c`, if any; models Rust `str::rfind`
with a single-character pattern. -/
def rfindChar (c : Char) (s : List Char) : Option Nat :=
  (indicesOf c s).getLast?

/-- `find_first_token` from the source.  Returns the category of the token
starting at position 0 of `s` and its length; `none` models the panics
(empty fragment, unterminated string literal, unrecognized character).

The source computes the category by a `match` on the first character and then
the length by a second `match` on the category; the two matches pair up
one-to-one (the `Alphanumeric` and `Symbol` arms of the length match are
unreachable because those cases return earlier), so the category/length pairs
are built in a single branch each here. -/
def find_first_token (s : List Char) : Option (TokenCategory × Nat) :=
  match get_sequence s with
  | some seq => some (TokenCategory.Sequence, seq.length)
  | none =>
    match s with
    | [] => none
    | first :: _ =>
      if is_alphanumeric first then
        some (TokenCategory.Alphanumeric,
          match s.findIdx? (fun c => ! is_alphanumeric c) with
          | some n => n
          | none => s.length)
      else if is_symbol first then
        some (TokenCategory.Symbol, 1)
      else if first == ' ' || first == '\n' || first == '\t' then
        some (TokenCategory.Whitespace,
          match s.findIdx? (fun c => ! (c == first)) with
          | some n => n
          | none => s.length)
      else if first == singleQuote || first == doubleQuote then
        match (indicesOf first s)[1]? with
        | some close => some (TokenCategory.StringLiteral, close + 2 * 1 - 1)
        | none => none
      else none

/-- `TokenCategory::from` in the source: the category of the first token
of `s`. -/
def TokenCategory.fromList (s : List Char) : Option TokenCategory :=
  (find_first_token s).map Prod.fst

/-- The conjunction of the `assert!` conditions of `Token::assertions`. -/
def Token.wf (t : Token) : Prop :=
  t.string.length > 0 ∧ t.buffer.length > 0 ∧ t.buffer.length ≥ t.string.length ∧
  t.index < t.buffer.length ∧ (t.index = 0 ∨ (t.row > 0 ∨ t.col > 0)) ∧
  t.line_start + t.col = t.index

instance (t : Token) : Decidable t.wf := by
  unfold Token.wf; infer_instance

/-- `Token::from` in the source: the root token over a whole buffer.
`none` models the panics (empty buffer or classification failure). -/
def Token.fromList (string : List Char) : Option Token :=
  match TokenCategory.fromList string with
  | none => none
  | some cat =>
    let token : Token :=
      { string := string, buffer := string, line_start := 0, index := 0,
        row := 0, col := 0, category := cat }
    if token.wf then some token else none

/-- The left part built by `Token::split_at`: the first `offset` characters,
all position metadata and the category unchanged. -/
def splitLeft (self : Token) (offset : Nat) : Token :=
  { self with string := self.string.take offset }

/-- The right part built by `Token::split_at`: the characters from `offset`
on, with `index`, `row`, `col`, `line_start` recomputed from the newlines of
the left part's text and the category `cat` recomputed from its own text. -/
def splitRight (self : Token) (offset : Nat) (cat : TokenCategory) : Token :=
  { string := self.string.drop offset
    buffer := self.buffer
    line_start :=
      match rfindChar '\n' (self.string.take offset) with
      | some n => self.index + n + 1
      | none => self.line_start
    index := self.index + offset
    row := self.row + (self.string.take offset).count '\n'
    col :=
      match rfindChar '\n' (self.string.take offset) with
      | some n => (self.string.take offset).length - n - 1
      | none => self.col + offset
    category := cat }

/-- `Token::split_at` from the source.  The outer guard is the conjunction of
`self.assertions()`, the three offset `assert!`s and `a.assertions()`; `none`
models any panic (including a classification failure on the right part and a
failed `b.assertions()`). -/
def Token.split_at (self : Token) (offset : Nat) :
    Option (Token × Option Token) :=
  if self.wf ∧ 0 < offset ∧ 1 ≤ self.string.length ∧
      offset ≤ self.string.length ∧ (splitLeft self offset).wf then
    if (self.string.drop offset).length = 0 then
      some (splitLeft self offset, none)
    else
      match TokenCategory.fromList (self.string.drop offset) with
      | none => none
      | some cat =>
        if (splitRight self offset cat).wf then
          some (splitLeft self offset, some (splitRight self offset cat))
        else none
  else none

/-- `Token::next_pair` from the source: classify the fragment, then split at
the measured length. -/
def Token.next_pair (self : Token) : Option (Token × Option Token) :=
  if self.wf then
    match find_first_token self.string with
    | none => none
    | some (_, offset) => self.split_at offset
  else none

/-- The whitespace filter used by `get_tokens` in the source. -/
def notWhitespaceFilter (t : Token) : Bool :=
  match t.category with
  | TokenCategory.Whitespace => false
  | _ => true

/-- `Token::get_tokens_including_whitespace` from the source.  The source
recursion applies `remainder.get_tokens()`, which is
`get_tokens_including_whitespace` followed by the whitespace filter;
`get_tokens` is defined just below from this function, so its body is
inlined at the recursive call. -/
def Token.get_tokens_including_whitespace (self : Token) :
    Option (List Token) :=
  match h : self.next_pair with
  | none => none
  | some (_token, none) => some [_token]
  | some (_token, some remainder) =>
    match remainder.get_tokens_including_whitespace with
    | none => none
    | some b => some (_token :: b.filter notWhitespaceFilter)
termination_by self.string.length
decreasing_by
  simp only [Token.next_pair] at h
  split at h
  · split at h
    · exact absurd h (by simp)
    · simp only [Token.split_at] at h
      split at h
      · rename_i hC
        split at h
        · simp at h
        · split at h
          · exact absurd h (by simp)
          · split at h
            · simp only [Option.some.injEq, Prod.mk.injEq,
                Option.some.injEq] at h
              have hrem : remainder = splitRight self _ _ := h.2.symm
              subst hrem
              simp only [splitRight, List.length_drop]
              omega
            · exact absurd h (by simp)
      · exact absurd h (by simp)
  · exact absurd h (by simp)

/-- `Token::get_tokens` from the source: the whitespace-inclusive token list
with all `Whitespace`-category tokens removed. -/
def Token.get_tokens (self : Token) : Option (List Token) :=
  (self.get_tokens_including_whitespace).map
    (fun ts => ts.filter notWhitespaceFilter)

/-- `Token::get_strings_including_whitespace` from the source. -/
def Token.get_strings_including_whitespace (self : Token) :
    Option (List (List Char)) :=
  (self.get_tokens_including_whitespace).map
    (fun ts => ts.map (fun t => t.string))

/-- `Token::get_strings` from the source. -/
def Token.get_strings (self : Token) : Option (List (List Char)) :=
  (self.get_tokens).map (fun ts => ts.map (fun t => t.string))

lemma giw_eq_none (t : Token) (h : t.next_pair = none) :
    t.get_tokens_including_whitespace = none := by
  unfold Token.get_tokens_including_whitespace
  split
  · rfl
  · rename_i tok heq
    rw [h] at heq; cases heq
  · rename_i tok r heq
    rw [h] at heq; cases heq

lemma giw_eq_single (t tok : Token) (h : t.next_pair = some (tok, none)) :
    t.get_tokens_including_whitespace = some [tok] := by
  unfold Token.get_tokens_including_whitespace
  split
  · rename_i heq
    rw [h] at heq; cases heq
  · rename_i tok' heq
    rw [h] at heq
    injection heq with heq'
    injection heq' with h1 h2
    rw [h1]
  · rename_i tok' r heq
    rw [h] at heq
    injection heq with heq'
    injection heq' with h1 h2
    cases h2

lemma giw_eq_step (t tok r : Token) (b : List Token)
    (h : t.next_pair = some (tok, some r))
    (hr : r.get_tokens_including_whitespace = some b) :
    t.get_tokens_including_whitespace =
      some (tok :: b.filter notWhitespaceFilter) := by
  unfold Token.get_tokens_including_whitespace
  split
  · rename_i heq
    rw [h] at heq; cases heq
  · rename_i tok' heq
    rw [h] at heq
    injection heq with heq'
    injection heq' with h1 h2
    cases h2
  · rename_i tok' r' heq
    rw [h] at heq
    injection heq with heq'
    injection heq' with h1 h2
    injection h2 with h2'
    rw [h1]
    rw [h2'] at hr
    rw [hr]

lemma split_at_inv (t : Token) (offset : Nat) (a : Token) (ob : Option Token)
    (h : t.split_at offset = some (a, ob)) :
    t.wf ∧ 0 < offset ∧ offset ≤ t.string.length ∧
      a = splitLeft t offset ∧ a.wf ∧
      ((ob = none ∧ offset = t.string.length) ∨
        (∃ b cat, ob = some b ∧ offset < t.string.length ∧
          TokenCategory.fromList (t.string.drop offset) = some cat ∧
          b = splitRight t offset cat ∧ b.wf)) := by
  simp only [Token.split_at] at h
  split at h
  · rename_i hC
    obtain ⟨hwf, hpos, hlen1, hle, hawf⟩ := hC
    split at h
    · rename_i hd
      simp only [Option.some.injEq, Prod.mk.injEq] at h
      obtain ⟨ha, hob⟩ := h
      subst ha
      refine ⟨hwf, hpos, hle, rfl, hawf, Or.inl ⟨hob.symm, ?_⟩⟩
      rw [List.length_drop] at hd
      omega
    · rename_i hd
      split at h
      · exact absurd h (by simp)
      · rename_i cat hcat
        split at h
        · rename_i hbwf
          simp only [Option.some.injEq, Prod.mk.injEq] at h
          obtain ⟨ha, hob⟩ := h
          subst ha
          refine ⟨hwf, hpos, hle, rfl, hawf,
            Or.inr ⟨splitRight t offset cat, cat, hob.symm, ?_, hcat, rfl, hbwf⟩⟩
          rw [List.length_drop] at hd
          omega
        · exact absurd h (by simp)
  · exact absurd h (by simp)

lemma next_pair_inv (t : Token) (tok : Token) (ob : Option Token)
    (h : t.next_pair = some (tok, ob)) :
    t.wf ∧ ∃ cat offset, find_first_token t.string = some (cat, offset) ∧
      t.split_at offset = some (tok, ob) := by
  simp only [Token.next_pair] at h
  split at h
  · rename_i hwf
    split at h
    · exact absurd h (by simp)
    · rename_i cat offset heq
      exact ⟨hwf, cat, offset, heq, h⟩
  · exact absurd h (by simp)

lemma fromList_inv (s : List Char) (t : Token) (h : Token.fromList s = some t) :
    t.string = s ∧ t.buffer = s ∧ t.line_start = 0 ∧ t.index = 0 ∧
      t.row = 0 ∧ t.col = 0 ∧ TokenCategory.fromList s = some t.category ∧
      t.wf := by
  simp only [Token.fromList] at h
  split at h
  · cases h
  · rename_i cat hcat
    split at h
    · rename_i hwf
      injection h with h'
      subst h'
      exact ⟨rfl, rfl, rfl, rfl, rfl, rfl, hcat, hwf⟩
    · cases h

lemma giw_inv_cases (t : Token) (l : List Token)
    (h : t.get_tokens_including_whitespace = some l) :
    ∃ tok ob, t.next_pair = some (tok, ob) ∧
      ((ob = none ∧ l = [tok]) ∨
        (∃ r b, ob = some r ∧ r.get_tokens_including_whitespace = some b ∧
          l = tok :: b.filter notWhitespaceFilter)) := by
  unfold Token.get_tokens_including_whitespace at h
  split at h
  · cases h
  · rename_i tok heq
    injection h with h'
    exact ⟨tok, none, heq, Or.inl ⟨rfl, h'.symm⟩⟩
  · rename_i tok r heq
    split at h
    · cases h
    · rename_i b hb
      injection h with h'
      exact ⟨tok, some r, heq, Or.inr ⟨r, b, rfl, hb, h'.symm⟩⟩

lemma notWhitespaceFilter_eq_true (u : Token) :
    notWhitespaceFilter u = true ↔ u.category ≠ TokenCategory.Whitespace := by
  unfold notWhitespaceFilter
  cases u.category <;> simp

@[simp] lemma splitLeft_string (t : Token) (offset : Nat) :
    (splitLeft t offset).string = t.string.take offset := rfl

@[simp] lemma splitLeft_buffer (t : Token) (offset : Nat) :
    (splitLeft t offset).buffer = t.buffer := rfl

@[simp] lemma splitLeft_index (t : Token) (offset : Nat) :
    (splitLeft t offset).index = t.index := rfl

@[simp] lemma splitLeft_row (t : Token) (offset : Nat) :
    (splitLeft t offset).row = t.row := rfl

@[simp] lemma splitLeft_col (t : Token) (offset : Nat) :
    (splitLeft t offset).col = t.col := rfl

@[simp] lemma splitLeft_line_start (t : Token) (offset : Nat) :
    (splitLeft t offset).line_start = t.line_start := rfl

@[simp] lemma splitLeft_category (t : Token) (offset : Nat) :
    (splitLeft t offset).category = t.category := rfl

@[simp] lemma splitRight_string (t : Token) (offset : Nat) (cat : TokenCategory) :
    (splitRight t offset cat).string = t.string.drop offset := rfl

@[simp] lemma splitRight_buffer (t : Token) (offset : Nat) (cat : TokenCategory) :
    (splitRight t offset cat).buffer = t.buffer := rfl

@[simp] lemma splitRight_index (t : Token) (offset : Nat) (cat : TokenCategory) :
    (splitRight t offset cat).index = t.index + offset := rfl

@[simp] lemma splitRight_row (t : Token) (offset : Nat) (cat : TokenCategory) :
    (splitRight t offset cat).row = t.row + (t.string.take offset).count '\n' := rfl

@[simp] lemma splitRight_category (t : Token) (offset : Nat) (cat : TokenCategory) :
    (splitRight t offset cat).category = cat := rfl

lemma splitRight_line_start (t : Token) (offset : Nat) (cat : TokenCategory) :
    (splitRight t offset cat).line_start =
      match rfindChar '\n' (t.string.take offset) with
      | some n => t.index + n + 1
      | none => t.line_start := rfl

lemma splitRight_col (t : Token) (offset : Nat) (cat : TokenCategory) :
    (splitRight t offset cat).col =
      match rfindChar '\n' (t.string.take offset) with
      | some n => (t.string.take offset).length - n - 1
      | none => t.col + offset := rfl

lemma giw_invariant (n : Nat) : ∀ (t : Token) (l : List Token),
    t.string.length ≤ n → t.get_tokens_including_whitespace = some l →
    l.length ≤ t.string.length ∧
      (∀ u ∈ l, u.wf ∧ t.index ≤ u.index ∧ t.row ≤ u.row) ∧
      l.Pairwise (fun u v => u.index < v.index ∧ u.row ≤ v.row) := by
  induction n with
  | zero =>
    intro t l hn h
    obtain ⟨tok, ob, hnp, -⟩ := giw_inv_cases t l h
    obtain ⟨hwf, -⟩ := next_pair_inv t tok ob hnp
    obtain ⟨hlen, -⟩ := hwf
    omega
  | succ n ih =>
    intro t l hn h
    obtain ⟨tok, ob, hnp, hcases⟩ := giw_inv_cases t l h
    obtain ⟨hwf, cat, offset, hfft, hsplit⟩ := next_pair_inv t tok ob hnp
    obtain ⟨-, hpos, hoff_le, ha, hawf, hrest⟩ :=
      split_at_inv t offset tok ob hsplit
    obtain ⟨htlen, -⟩ := hwf
    rcases hcases with ⟨hob, hl⟩ | ⟨r, b, hob, hgr, hl⟩
    · subst hl
      refine ⟨by simp only [List.length_singleton]; omega, ?_, by simp⟩
      intro u hu
      rw [List.mem_singleton] at hu
      subst hu
      exact ⟨hawf, by simp [ha], by simp [ha]⟩
    · subst hob
      rcases hrest with ⟨hne, -⟩ | ⟨b', cat', hob', hlt, hcat', hb', hbwf⟩
      · cases hne
      · have hrb : r = splitRight t offset cat' := by
          injection hob' with h'
          rw [h']
          exact hb'
        have hrlen : r.string.length ≤ n := by
          rw [hrb]
          simp only [splitRight_string, List.length_drop]
          omega
        obtain ⟨ihlen, ihmem, ihpw⟩ := ih r b hrlen hgr
        subst hl
        have hmem_filter : ∀ u ∈ b.filter notWhitespaceFilter,
            u.wf ∧ t.index ≤ u.index ∧ t.row ≤ u.row := by
          intro u hu
          obtain ⟨huwf, hui, hur⟩ := ihmem u (List.mem_of_mem_filter hu)
          have hri : r.index = t.index + offset := by rw [hrb]; simp
          have hrr : t.row ≤ r.row := by
            rw [hrb]; simp
          exact ⟨huwf, by omega, by omega⟩
        refine ⟨?_, ?_, ?_⟩
        · have h1 : (b.filter notWhitespaceFilter).length ≤ b.length :=
            List.length_filter_le _ _
          have h2 : r.string.length = t.string.length - offset := by
            rw [hrb]; simp
          simp only [List.length_cons]
          omega
        · intro u hu
          rcases List.mem_cons.mp hu with hu | hu
          · subst hu
            exact ⟨hawf, by simp [ha], by simp [ha]⟩
          · exact hmem_filter u hu
        · rw [List.pairwise_cons]
          refine ⟨?_, ihpw.sublist (List.filter_sublist b)⟩
          intro u hu
          obtain ⟨huwf, hui, hur⟩ := ihmem u (List.mem_of_mem_filter hu)
          have hri : r.index = t.index + offset := by rw [hrb]; simp
          have hrr : t.row ≤ r.row := by rw [hrb]; simp
          have hti : tok.index = t.index := by rw [ha]; simp
          have htr : tok.row = t.row := by rw [ha]; simp
          constructor
          · omega
          · omega

lemma giw_shape (t : Token) (l : List Token)
    (h : t.get_tokens_including_whitespace = some l) :
    ∃ tok rest, l = tok :: rest ∧ tok.category = t.category ∧
      ∀ u ∈ rest, notWhitespaceFilter u = true := by
  obtain ⟨tok, ob, hnp, hcases⟩ := giw_inv_cases t l h
  obtain ⟨hwf, cat, offset, hfft, hsplit⟩ := next_pair_inv t tok ob hnp
  obtain ⟨-, -, -, ha, -, -⟩ := split_at_inv t offset tok ob hsplit
  rcases hcases with ⟨-, hl⟩ | ⟨r, b, -, hgr, hl⟩
  · exact ⟨tok, [], hl, by rw [ha]; simp, by simp⟩
  · exact ⟨tok, b.filter notWhitespaceFilter, hl, by rw [ha]; simp,
      fun u hu => List.of_mem_filter hu⟩

lemma get_tokens_eq_of_not_ws (t : Token) (l : List Token)
    (h : t.get_tokens_including_whitespace = some l)
    (hcat : t.category ≠ TokenCategory.Whitespace) :
    t.get_tokens = some l := by
  obtain ⟨tok, rest, hl, htokcat, hrest⟩ := giw_shape t l h
  have hptok : notWhitespaceFilter tok = true :=
    (notWhitespaceFilter_eq_true tok).mpr (by rw [htokcat]; exact hcat)
  unfold Token.get_tokens
  rw [h, hl, Option.map_some', List.filter_cons_of_pos hptok,
    List.filter_eq_self.mpr hrest]

/-- The classifier yields the `Whitespace` category only when the fragment
starts with a space, newline or tab. -/
lemma classify_ws_head (s : List Char) (n : Nat)
    (h : find_first_token s = some (TokenCategory.Whitespace, n)) :
    ∃ c cs, s = c :: cs ∧ (c = ' ' ∨ c = '\n' ∨ c = '\t') := by
  unfold find_first_token at h
  split at h
  · injection h with h'
    injection h' with h1 h2
    cases h1
  · split at h
    · cases h
    · rename_i first rest hgs
      split at h
      · injection h with h'
        injection h' with h1 h2
        cases h1
      · split at h
        · injection h with h'
          injection h' with h1 h2
          cases h1
        · split at h
          · rename_i hws
            refine ⟨first, rest, rfl, ?_⟩
            simpa [or_assoc] using hws
          · split at h
            · split at h
              · injection h with h'
                injection h' with h1 h2
                cases h1
              · cases h
            · cases h

lemma findIdx?_cons_zero (p : Char → Bool) (a : Char) (l : List Char) :
    (a :: l).findIdx? p = if p a then some 0 else (l.findIdx? p).map (· + 1) := by
  rw [List.findIdx?_cons, List.findIdx?_succ]

lemma find?_eq_some_split {α : Type} (p : α → Bool) :
    ∀ (l : List α) (b : α), l.find? p = some b →
      ∃ l1 l2, l = l1 ++ b :: l2 ∧ (∀ x ∈ l1, p x = false) ∧ p b = true := by
  intro l
  induction l with
  | nil => intro b h; cases h
  | cons a l ih =>
    intro b h
    by_cases hp : p a
    · rw [List.find?_cons_of_pos _ hp] at h
      injection h with h'
      subst h'
      exact ⟨[], l, rfl, by simp, hp⟩
    · rw [List.find?_cons_of_neg _ (by simpa using hp)] at h
      obtain ⟨l1, l2, hl, h1, hb⟩ := ih b h
      refine ⟨a :: l1, l2, by rw [hl]; rfl, ?_, hb⟩
      intro x hx
      rcases List.mem_cons.mp hx with hx | hx
      · subst hx
        simpa using hp
      · exact h1 x hx

/-- Every measured token length is at least one character. -/
lemma find_first_token_pos (s : List Char) (cat : TokenCategory) (n : Nat)
    (h : find_first_token s = some (cat, n)) : 1 ≤ n := by
  unfold find_first_token at h
  split at h
  · rename_i seq hseq
    injection h with h'
    injection h' with h1 h2
    subst h2
    have hmem : seq ∈ sequences := List.mem_of_find?_eq_some hseq
    have : ∀ x ∈ sequences, 1 ≤ x.length := by decide
    exact this seq hmem
  · split at h
    · cases h
    · rename_i first rest hgs
      split at h
      · rename_i halnum
        injection h with h'
        injection h' with h1 h2
        rw [← h2]
        have hpf : (! is_alphanumeric first) = false := by rw [halnum]; rfl
        rw [findIdx?_cons_zero, hpf]
        rcases hfi : rest.findIdx? (fun c => ! is_alphanumeric c) with - | m <;>
          simp [hfi]
      · split at h
        · injection h with h'
          injection h' with h1 h2
          omega
        · split at h
          · injection h with h'
            injection h' with h1 h2
            rw [← h2]
            have hpf : (! (first == first)) = false := by simp
            rw [findIdx?_cons_zero, hpf]
            rcases hfi : rest.findIdx? (fun c => ! (c == first)) with - | m <;>
              simp [hfi]
          · split at h
            · split at h
              · injection h with h'
                injection h' with h1 h2
                omega
              · cases h
            · cases h

lemma fft_of_get_sequence (s : List Char) (seq : List Char)
    (h : get_sequence s = some seq) :
    find_first_token s = some (TokenCategory.Sequence, seq.length) := by
  unfold find_first_token
  rw [h]

lemma indicesOf_head (q : Char) : ∀ (s : List Char),
    (indicesOf q s).head? = s.findIdx? (fun c => c == q) := by
  intro s
  induction s with
  | nil => rfl
  | cons x xs ih =>
    by_cases hx : x = q
    · subst hx
      simp [indicesOf, findIdx?_cons_zero]
    · rw [findIdx?_cons_zero]
      have hb : (x == q) = false := by simpa using hx
      simp only [indicesOf, if_neg hx, hb, Bool.false_eq_true, if_false]
      rw [List.head?_map, ih]

lemma indicesOf_second (q : Char) (s : List Char) :
    (indicesOf q (q :: s))[1]? = (s.findIdx? (fun c => c == q)).map (· + 1) := by
  have h1 : indicesOf q (q :: s) = 0 :: (indicesOf q s).map (· + 1) := by
    simp [indicesOf]
  rw [h1, List.getElem?_cons_succ, ← List.head?_eq_getElem?, List.head?_map,
    indicesOf_head]

lemma wf_props (u : Token) (h : u.wf) :
    u.string ≠ [] ∧ u.index < u.buffer.length ∧
      u.line_start + u.col = u.index := by
  obtain ⟨h1, -, -, h4, -, h6⟩ := h
  exact ⟨List.length_pos.mp h1, h4, h6⟩

/-- C6: classification tests the fixed ordered sequence table first.  When
`get_sequence` matches, the matched entry is the first table entry that is a
prefix of the fragment (all earlier entries fail), the resulting category is
`Sequence` and the length is the entry's length; conversely any matching table
entry forces a `Sequence` classification.  The table order lets no earlier
entry be a prefix of a later one, so a fragment beginning with `===` is
measured as a 3-byte `Sequence` token (not as `==`), and fragments beginning
with `->` or `=>` each yield a single 2-byte `Sequence` token rather than two
`Symbol` tokens. -/
theorem C6_sequence_table :
    (∀ s seq, get_sequence s = some seq →
      (∃ l1 l2, sequences = l1 ++ seq :: l2 ∧ seq.isPrefixOf s = true ∧
        ∀ x ∈ l1, x.isPrefixOf s = false) ∧
      find_first_token s = some (TokenCategory.Sequence, seq.length)) ∧
    (∀ s seq, seq ∈ sequences → seq.isPrefixOf s = true →
      ∃ seq2, get_sequence s = some seq2 ∧
        find_first_token s = some (TokenCategory.Sequence, seq2.length)) ∧
    sequences.Pairwise (fun a b => a.isPrefixOf b = false) ∧
    (∀ rest, find_first_token ('=' :: '=' :: '=' :: rest) =
      some (TokenCategory.Sequence, 3)) ∧
    (∀ rest, find_first_token ('-' :: '>' :: rest) =
      some (TokenCategory.Sequence, 2)) ∧
    (∀ rest, find_first_token ('=' :: '>' :: rest) =
      some (TokenCategory.Sequence, 2)) := by
  refine ⟨?_, ?_, by decide, ?_, ?_, ?_⟩
  · intro s seq h
    refine ⟨?_, fft_of_get_sequence s seq h⟩
    unfold get_sequence at h
    obtain ⟨l1, l2, hsplit, hneg, hpos⟩ := find?_eq_some_split _ _ _ h
    exact ⟨l1, l2, hsplit, hpos, hneg⟩
  · intro s seq hmem hpre
    rcases hgs : get_sequence s with - | seq2
    · exfalso
      have := List.find?_eq_none.mp hgs seq hmem
      rw [hpre] at this
      exact this rfl
    · exact ⟨seq2, rfl, fft_of_get_sequence s seq2 hgs⟩
  · intro rest
    have hgs : get_sequence ('=' :: '=' :: '=' :: rest) = some ['=', '=', '='] := by
      simp [get_sequence, sequences, List.find?_cons, List.isPrefixOf_cons₂,
        List.isPrefixOf_nil_left]
    rw [fft_of_get_sequence _ _ hgs]
    rfl
  · intro rest
    have hgs : get_sequence ('-' :: '>' :: rest) = some ['-', '>'] := by
      simp [get_sequence, sequences, List.find?_cons, List.isPrefixOf_cons₂,
        List.isPrefixOf_nil_left]
    rw [fft_of_get_sequence _ _ hgs]
    rfl
  · intro rest
    have hgs : get_sequence ('=' :: '>' :: rest) = some ['=', '>'] := by
      simp [get_sequence, sequences, List.find?_cons, List.isPrefixOf_cons₂,
        List.isPrefixOf_nil_left]
    rw [fft_of_get_sequence _ _ hgs]
    rfl

/-- Witness for C6 at concrete fragments. -/
theorem C6_sequence_table_witness :
    ((∃ l1 l2, sequences = l1 ++ ['=', '='] :: l2 ∧
        (['=', '=']).isPrefixOf ('=' :: '=' :: 'x' :: []) = true ∧
        ∀ x ∈ l1, x.isPrefixOf ('=' :: '=' :: 'x' :: []) = false) ∧
      find_first_token ('=' :: '=' :: 'x' :: []) =
        some (TokenCategory.Sequence, (['=', '=']).length)) ∧
    find_first_token ('=' :: '=' :: '=' :: []) =
      some (TokenCategory.Sequence, 3) ∧
    find_first_token ('-' :: '>' :: []) = some (TokenCategory.Sequence, 2) ∧
    find_first_token ('=' :: '>' :: []) = some (TokenCategory.Sequence, 2) :=
  ⟨C6_sequence_table.1 ('=' :: '=' :: 'x' :: []) ['=', '='] (by decide),
    C6_sequence_table.2.2.2.1 [], C6_sequence_table.2.2.2.2.1 [],
    C6_sequence_table.2.2.2.2.2 []⟩

/-- C7: a fragment starting with a quote character is classified as a
`StringLiteral` delimited by the next occurrence of the same quote character,
its length running from the opening quote through the closing quote
inclusive (a closing quote at position `k` of the tail lies at fragment index
`k + 1`, giving length `k + 2`); when the quote character never occurs again,
classification fails fatally instead of returning a result. -/
theorem C7_string_literal :
    ∀ (q : Char) (s : List Char), q = singleQuote ∨ q = doubleQuote →
      (∀ k, s.findIdx? (fun c => c == q) = some k →
        find_first_token (q :: s) =
          some (TokenCategory.StringLiteral, (k + 1) + 1)) ∧
      (s.findIdx? (fun c => c == q) = none →
        find_first_token (q :: s) = none) := by
  intro q s hq
  rcases hq with rfl | rfl
  · constructor
    · intro k hk
      have hred : find_first_token (singleQuote :: s) =
          (match (indicesOf singleQuote (singleQuote :: s))[1]? with
            | some close =>
              some (TokenCategory.StringLiteral, close + 2 * 1 - 1)
            | none => none) := rfl
      rw [hred, indicesOf_second, hk]
      rfl
    · intro hk
      have hred : find_first_token (singleQuote :: s) =
          (match (indicesOf singleQuote (singleQuote :: s))[1]? with
            | some close =>
              some (TokenCategory.StringLiteral, close + 2 * 1 - 1)
            | none => none) := rfl
      rw [hred, indicesOf_second, hk]
      rfl
  · constructor
    · intro k hk
      have hred : find_first_token (doubleQuote :: s) =
          (match (indicesOf doubleQuote (doubleQuote :: s))[1]? with
            | some close =>
              some (TokenCategory.StringLiteral, close + 2 * 1 - 1)
            | none => none) := rfl
      rw [hred, indicesOf_second, hk]
      rfl
    · intro hk
      have hred : find_first_token (doubleQuote :: s) =
          (match (indicesOf doubleQuote (doubleQuote :: s))[1]? with
            | some close =>
              some (TokenCategory.StringLiteral, close + 2 * 1 - 1)
            | none => none) := rfl
      rw [hred, indicesOf_second, hk]
      rfl

/-- Witness for C7: a terminated and an unterminated single-quote literal. -/
theorem C7_string_literal_witness :
    find_first_token (singleQuote :: 'a' :: singleQuote :: 'x' :: []) =
      some (TokenCategory.StringLiteral, (1 + 1) + 1) ∧
    find_first_token (singleQuote :: 'a' :: 'b' :: []) = none :=
  ⟨(C7_string_literal singleQuote ('a' :: singleQuote :: 'x' :: [])
      (Or.inl rfl)).1 1 (by decide),
    (C7_string_literal singleQuote ('a' :: 'b' :: [])
      (Or.inl rfl)).2 (by decide)⟩

/-- C8: a fragment starting with a space, newline or tab is classified as
`Whitespace`, its length running to just before the first character that
differs from the first character, or to the end of the fragment when every
character equals the first; hence the mixed run consisting of a space then a
tab is carved into two separate whitespace tokens rather than one. -/
theorem C8_whitespace_run :
    (∀ (c : Char) (s : List Char), c = ' ' ∨ c = '\n' ∨ c = '\t' →
      (∀ n, (c :: s).findIdx? (fun x => ! (x == c)) = some n →
        find_first_token (c :: s) = some (TokenCategory.Whitespace, n)) ∧
      ((c :: s).findIdx? (fun x => ! (x == c)) = none →
        find_first_token (c :: s) =
          some (TokenCategory.Whitespace, (c :: s).length))) ∧
    (Token.fromList (' ' :: '\t' :: []) =
      some ⟨[' ', '\t'], [' ', '\t'], 0, 0, 0, 0, TokenCategory.Whitespace⟩ ∧
    (⟨[' ', '\t'], [' ', '\t'], 0, 0, 0, 0,
        TokenCategory.Whitespace⟩ : Token).next_pair =
      some (⟨[' '], [' ', '\t'], 0, 0, 0, 0, TokenCategory.Whitespace⟩,
        some ⟨['\t'], [' ', '\t'], 0, 1, 0, 1, TokenCategory.Whitespace⟩)) := by
  constructor
  · intro c s hc
    rcases hc with rfl | rfl | rfl
    · have hred : find_first_token (' ' :: s) =
          some (TokenCategory.Whitespace,
            match (' ' :: s).findIdx? (fun x => ! (x == ' ')) with
            | some n => n
            | none => (' ' :: s).length) := rfl
      exact ⟨fun n hn => by rw [hred, hn], fun hn => by rw [hred, hn]⟩
    · have hred : find_first_token ('\n' :: s) =
          some (TokenCategory.Whitespace,
            match ('\n' :: s).findIdx? (fun x => ! (x == '\n')) with
            | some n => n
            | none => ('\n' :: s).length) := rfl
      exact ⟨fun n hn => by rw [hred, hn], fun hn => by rw [hred, hn]⟩
    · have hred : find_first_token ('\t' :: s) =
          some (TokenCategory.Whitespace,
            match ('\t' :: s).findIdx? (fun x => ! (x == '\t')) with
            | some n => n
            | none => ('\t' :: s).length) := rfl
      exact ⟨fun n hn => by rw [hred, hn], fun hn => by rw [hred, hn]⟩
  · exact ⟨by decide, by decide⟩

/-- Witness for C8: a space run cut by a tab, and an all-space fragment. -/
theorem C8_whitespace_run_witness :
    find_first_token (' ' :: ' ' :: '\t' :: []) =
      some (TokenCategory.Whitespace, 2) ∧
    find_first_token (' ' :: ' ' :: []) =
      some (TokenCategory.Whitespace, (' ' :: ' ' :: []).length) :=
  ⟨(C8_whitespace_run.1 ' ' (' ' :: '\t' :: []) (Or.inl rfl)).1 2 (by decide),
    (C8_whitespace_run.1 ' ' (' ' :: []) (Or.inl rfl)).2 (by decide)⟩

lemma giw_ab :
    (⟨['a', 'b'], ['a', 'b'], 0, 0, 0, 0,
        TokenCategory.Alphanumeric⟩ : Token).get_tokens_including_whitespace =
      some [⟨['a', 'b'], ['a', 'b'], 0, 0, 0, 0, TokenCategory.Alphanumeric⟩] :=
  giw_eq_single _ _ (by decide)

lemma giw_b_of_a_space_b :
    (⟨['b'], ['a', ' ', 'b'], 0, 2, 0, 2,
        TokenCategory.Alphanumeric⟩ : Token).get_tokens_including_whitespace =
      some [⟨['b'], ['a', ' ', 'b'], 0, 2, 0, 2, TokenCategory.Alphanumeric⟩] :=
  giw_eq_single _ _ (by decide)

lemma giw_space_b :
    (⟨[' ', 'b'], ['a', ' ', 'b'], 0, 1, 0, 1,
        TokenCategory.Whitespace⟩ : Token).get_tokens_including_whitespace =
      some [⟨[' '], ['a', ' ', 'b'], 0, 1, 0, 1, TokenCategory.Whitespace⟩,
        ⟨['b'], ['a', ' ', 'b'], 0, 2, 0, 2, TokenCategory.Alphanumeric⟩] :=
  giw_eq_step _ _ _ _ (by decide) giw_b_of_a_space_b

lemma giw_a_space_b :
    (⟨['a', ' ', 'b'], ['a', ' ', 'b'], 0, 0, 0, 0,
        TokenCategory.Alphanumeric⟩ : Token).get_tokens_including_whitespace =
      some [⟨['a'], ['a', ' ', 'b'], 0, 0, 0, 0, TokenCategory.Alphanumeric⟩,
        ⟨['b'], ['a', ' ', 'b'], 0, 2, 0, 2, TokenCategory.Alphanumeric⟩] :=
  giw_eq_step _ _ _ _ (by decide) giw_space_b

/-- C10: on every fragment whose classification succeeds the measured length
is at least 1, so each `next_pair` step strictly shrinks the remainder, and a
successful tokenization of an `N`-character buffer yields at most `N` tokens
(one classify-and-split step per token). -/
theorem C10_progress_termination :
    (∀ s cat n, find_first_token s = some (cat, n) → 1 ≤ n) ∧
    (∀ (t tok r : Token), t.next_pair = some (tok, some r) →
      r.string.length < t.string.length) ∧
    (∀ (t : Token) (l : List Token),
      t.get_tokens_including_whitespace = some l →
      l.length ≤ t.string.length) := by
  refine ⟨find_first_token_pos, ?_, ?_⟩
  · intro t tok r h
    obtain ⟨-, cat, offset, -, hsplit⟩ := next_pair_inv t tok (some r) h
    obtain ⟨-, hpos, hle, -, -, hrest⟩ := split_at_inv t offset tok (some r) hsplit
    rcases hrest with ⟨hne, -⟩ | ⟨b', cat', hob', -, -, hb', -⟩
    · cases hne
    · have hr : r = splitRight t offset cat' := by
        injection hob' with h'
        rw [h']
        exact hb'
      rw [hr]
      simp only [splitRight_string, List.length_drop]
      omega
  · intro t l h
    exact (giw_invariant t.string.length t l le_rfl h).1

/-- Witness for C10 at concrete inputs. -/
theorem C10_progress_termination_witness :
    (find_first_token ['a'] = some (TokenCategory.Alphanumeric, 1) ∧ 1 ≤ 1) ∧
    ([⟨['a', 'b'], ['a', 'b'], 0, 0, 0, 0,
        TokenCategory.Alphanumeric⟩] : List Token).length ≤
      (⟨['a', 'b'], ['a', 'b'], 0, 0, 0, 0,
        TokenCategory.Alphanumeric⟩ : Token).string.length :=
  ⟨⟨by decide, C10_progress_termination.1 ['a'] TokenCategory.Alphanumeric 1
      (by decide)⟩,
    C10_progress_termination.2.2 _ _ giw_ab⟩

/-- C4: the remainder of a split has index advanced by the offset, row
advanced by the number of newline characters in the left part's text,
line start and column recomputed from the position of the last newline of
the left part when one exists (otherwise line start unchanged and column
advanced by the offset), and a category recomputed by classifying the
remainder's own text. -/
theorem C4_split_remainder :
    ∀ (t : Token) (offset : Nat) (a b : Token),
      t.split_at offset = some (a, some b) →
      b.index = t.index + offset ∧
      b.row = t.row + (t.string.take offset).count '\n' ∧
      (∀ n, rfindChar '\n' (t.string.take offset) = some n →
        b.line_start = t.index + n + 1 ∧
        b.col = (t.string.take offset).length - n - 1) ∧
      (rfindChar '\n' (t.string.take offset) = none →
        b.line_start = t.line_start ∧ b.col = t.col + offset) ∧
      TokenCategory.fromList b.string = some b.category := by
  intro t offset a b h
  obtain ⟨-, -, -, -, -, hrest⟩ := split_at_inv t offset a (some b) h
  rcases hrest with ⟨hne, -⟩ | ⟨b', cat', hob', -, hcat', hb', -⟩
  · cases hne
  · have hb : b = splitRight t offset cat' := by
      injection hob' with h'
      rw [h']
      exact hb'
    subst hb
    refine ⟨by simp, by simp, ?_, ?_, ?_⟩
    · intro n hn
      rw [splitRight_line_start, splitRight_col, hn]
      exact ⟨rfl, rfl⟩
    · intro hn
      rw [splitRight_line_start, splitRight_col, hn]
      exact ⟨rfl, rfl⟩
    · simp only [splitRight_string, splitRight_category]
      exact hcat'

/-- Witness for C4: splitting the token over `a\nb` at offset 2, whose left
part contains one newline. -/
theorem C4_split_remainder_witness :
    (⟨['b'], ['a', '\n', 'b'], 2, 2, 1, 0,
        TokenCategory.Alphanumeric⟩ : Token).index =
      (⟨['a', '\n', 'b'], ['a', '\n', 'b'], 0, 0, 0, 0,
        TokenCategory.Alphanumeric⟩ : Token).index + 2 ∧
    (⟨['b'], ['a', '\n', 'b'], 2, 2, 1, 0,
        TokenCategory.Alphanumeric⟩ : Token).row =
      (⟨['a', '\n', 'b'], ['a', '\n', 'b'], 0, 0, 0, 0,
        TokenCategory.Alphanumeric⟩ : Token).row +
      ((⟨['a', '\n', 'b'], ['a', '\n', 'b'], 0, 0, 0, 0,
        TokenCategory.Alphanumeric⟩ : Token).string.take 2).count '\n' ∧
    (∀ n, rfindChar '\n'
        ((⟨['a', '\n', 'b'], ['a', '\n', 'b'], 0, 0, 0, 0,
          TokenCategory.Alphanumeric⟩ : Token).string.take 2) = some n →
      (⟨['b'], ['a', '\n', 'b'], 2, 2, 1, 0,
          TokenCategory.Alphanumeric⟩ : Token).line_start =
        (⟨['a', '\n', 'b'], ['a', '\n', 'b'], 0, 0, 0, 0,
          TokenCategory.Alphanumeric⟩ : Token).index + n + 1 ∧
      (⟨['b'], ['a', '\n', 'b'], 2, 2, 1, 0,
          TokenCategory.Alphanumeric⟩ : Token).col =
        ((⟨['a', '\n', 'b'], ['a', '\n', 'b'], 0, 0, 0, 0,
          TokenCategory.Alphanumeric⟩ : Token).string.take 2).length - n - 1) ∧
    (rfindChar '\n'
        ((⟨['a', '\n', 'b'], ['a', '\n', 'b'], 0, 0, 0, 0,
          TokenCategory.Alphanumeric⟩ : Token).string.take 2) = none →
      (⟨['b'], ['a', '\n', 'b'], 2, 2, 1, 0,
          TokenCategory.Alphanumeric⟩ : Token).line_start =
        (⟨['a', '\n', 'b'], ['a', '\n', 'b'], 0, 0, 0, 0,
          TokenCategory.Alphanumeric⟩ : Token).line_start ∧
      (⟨['b'], ['a', '\n', 'b'], 2, 2, 1, 0,
          TokenCategory.Alphanumeric⟩ : Token).col =
        (⟨['a', '\n', 'b'], ['a', '\n', 'b'], 0, 0, 0, 0,
          TokenCategory.Alphanumeric⟩ : Token).col + 2) ∧
    TokenCategory.fromList
        (⟨['b'], ['a', '\n', 'b'], 2, 2, 1, 0,
          TokenCategory.Alphanumeric⟩ : Token).string =
      some (⟨['b'], ['a', '\n', 'b'], 2, 2, 1, 0,
          TokenCategory.Alphanumeric⟩ : Token).category :=
  C4_split_remainder
    ⟨['a', '\n', 'b'], ['a', '\n', 'b'], 0, 0, 0, 0, TokenCategory.Alphanumeric⟩
    2
    ⟨['a', '\n'], ['a', '\n', 'b'], 0, 0, 0, 0, TokenCategory.Alphanumeric⟩
    ⟨['b'], ['a', '\n', 'b'], 2, 2, 1, 0, TokenCategory.Alphanumeric⟩
    (by decide)

/-- C5: the left part of a split keeps exactly the first `offset` characters
of the text and all other fields of the input token unchanged, and a
remainder exists exactly when the offset is strictly smaller than the text
length; in particular splitting the single-character token `;` at offset 1
returns the whole token and no remainder. -/
theorem C5_split_left_frame :
    (∀ (t : Token) (offset : Nat) (a : Token) (ob : Option Token),
      t.split_at offset = some (a, ob) →
      a.string = t.string.take offset ∧ a.buffer = t.buffer ∧
      a.index = t.index ∧ a.row = t.row ∧ a.col = t.col ∧
      a.line_start = t.line_start ∧ a.category = t.category ∧
      (ob.isSome = true ↔ offset < t.string.length)) ∧
    (∀ t, Token.fromList (';' :: []) = some t →
      t.split_at 1 = some (t, none)) := by
  constructor
  · intro t offset a ob h
    obtain ⟨-, -, hle, ha, -, hrest⟩ := split_at_inv t offset a ob h
    subst ha
    refine ⟨by simp, by simp, by simp, by simp, by simp, by simp, by simp, ?_⟩
    rcases hrest with ⟨hob, heq⟩ | ⟨b', cat', hob', hlt, -, -, -⟩
    · subst hob
      simp [heq]
    · subst hob'
      simp [hlt]
  · intro t h
    have ht : Token.fromList (';' :: []) =
        some ⟨[';'], [';'], 0, 0, 0, 0, TokenCategory.Symbol⟩ := by decide
    rw [ht] at h
    injection h with h'
    subst h'
    decide

/-- Witness for C5: the left part of splitting the token over `ab` at
offset 1, and the `;` scenario. -/
theorem C5_split_left_frame_witness :
    ((⟨['a'], ['a', 'b'], 0, 0, 0, 0,
        TokenCategory.Alphanumeric⟩ : Token).string =
      (⟨['a', 'b'], ['a', 'b'], 0, 0, 0, 0,
        TokenCategory.Alphanumeric⟩ : Token).string.take 1 ∧
      (⟨['a'], ['a', 'b'], 0, 0, 0, 0,
        TokenCategory.Alphanumeric⟩ : Token).buffer =
      (⟨['a', 'b'], ['a', 'b'], 0, 0, 0, 0,
        TokenCategory.Alphanumeric⟩ : Token).buffer ∧
      (⟨['a'], ['a', 'b'], 0, 0, 0, 0,
        TokenCategory.Alphanumeric⟩ : Token).index =
      (⟨['a', 'b'], ['a', 'b'], 0, 0, 0, 0,
        TokenCategory.Alphanumeric⟩ : Token).index ∧
      (⟨['a'], ['a', 'b'], 0, 0, 0, 0,
        TokenCategory.Alphanumeric⟩ : Token).row =
      (⟨['a', 'b'], ['a', 'b'], 0, 0, 0, 0,
        TokenCategory.Alphanumeric⟩ : Token).row ∧
      (⟨['a'], ['a', 'b'], 0, 0, 0, 0,
        TokenCategory.Alphanumeric⟩ : Token).col =
      (⟨['a', 'b'], ['a', 'b'], 0, 0, 0, 0,
        TokenCategory.Alphanumeric⟩ : Token).col ∧
      (⟨['a'], ['a', 'b'], 0, 0, 0, 0,
        TokenCategory.Alphanumeric⟩ : Token).line_start =
      (⟨['a', 'b'], ['a', 'b'], 0, 0, 0, 0,
        TokenCategory.Alphanumeric⟩ : Token).line_start ∧
      (⟨['a'], ['a', 'b'], 0, 0, 0, 0,
        TokenCategory.Alphanumeric⟩ : Token).category =
      (⟨['a', 'b'], ['a', 'b'], 0, 0, 0, 0,
        TokenCategory.Alphanumeric⟩ : Token).category ∧
      ((some (⟨['b'], ['a', 'b'], 0, 1, 0, 1,
          TokenCategory.Alphanumeric⟩ : Token)).isSome = true ↔
        1 < (⟨['a', 'b'], ['a', 'b'], 0, 0, 0, 0,
          TokenCategory.Alphanumeric⟩ : Token).string.length)) ∧
    (⟨[';'], [';'], 0, 0, 0, 0, TokenCategory.Symbol⟩ : Token).split_at 1 =
      some (⟨[';'], [';'], 0, 0, 0, 0, TokenCategory.Symbol⟩, none) :=
  ⟨C5_split_left_frame.1
      ⟨['a', 'b'], ['a', 'b'], 0, 0, 0, 0, TokenCategory.Alphanumeric⟩ 1
      ⟨['a'], ['a', 'b'], 0, 0, 0, 0, TokenCategory.Alphanumeric⟩
      (some ⟨['b'], ['a', 'b'], 0, 1, 0, 1, TokenCategory.Alphanumeric⟩)
      (by decide),
    C5_split_left_frame.2
      ⟨[';'], [';'], 0, 0, 0, 0, TokenCategory.Symbol⟩ (by decide)⟩

/-- C3: the whitespace-inclusive token list contains at most one
`Whitespace`-category token and only in head position (every token after the
head is non-whitespace, because the recursion routes the remainder through
`get_tokens`); whenever the head token is not whitespace — in particular
whenever the buffer does not begin with a whitespace character —
`get_tokens_including_whitespace` returns exactly the `get_tokens` list. -/
theorem C3_whitespace_only_at_head :
    (∀ (t : Token) (l : List Token),
      t.get_tokens_including_whitespace = some l →
      (∀ u ∈ l.tail, u.category ≠ TokenCategory.Whitespace) ∧
      l.countP (fun u => decide (u.category = TokenCategory.Whitespace)) ≤ 1) ∧
    (∀ (t : Token) (l : List Token),
      t.get_tokens_including_whitespace = some l →
      t.category ≠ TokenCategory.Whitespace → t.get_tokens = some l) ∧
    (∀ (s : List Char) (t : Token) (l : List Token),
      Token.fromList s = some t →
      (∀ c, s.head? = some c → ¬(c = ' ' ∨ c = '\n' ∨ c = '\t')) →
      t.get_tokens_including_whitespace = some l →
      t.get_tokens = some l) := by
  refine ⟨?_, ?_, ?_⟩
  · intro t l h
    obtain ⟨tok, rest, hl, -, hrest⟩ := giw_shape t l h
    subst hl
    constructor
    · intro u hu
      exact (notWhitespaceFilter_eq_true u).mp (hrest u hu)
    · have h0 : ∀ u ∈ rest,
          ¬ ((fun u => decide (u.category = TokenCategory.Whitespace)) u = true) := by
        intro u hu
        simpa using (notWhitespaceFilter_eq_true u).mp (hrest u hu)
      rw [List.countP_cons, List.countP_eq_zero.mpr h0]
      by_cases hp : (decide (tok.category = TokenCategory.Whitespace)) = true
      · simp [hp]
      · simp [hp]
  · intro t l h hcat
    exact get_tokens_eq_of_not_ws t l h hcat
  · intro s t l hfrom hc h
    obtain ⟨-, -, -, -, -, -, hcat, -⟩ := fromList_inv s t hfrom
    apply get_tokens_eq_of_not_ws t l h
    intro hws
    rw [hws] at hcat
    unfold TokenCategory.fromList at hcat
    rcases hfft : find_first_token s with - | p
    · rw [hfft] at hcat
      cases hcat
    · rw [hfft] at hcat
      obtain ⟨c1, n1⟩ := p
      simp only [Option.map_some'] at hcat
      injection hcat with h2
      rw [h2] at hfft
      obtain ⟨c, cs, hs, hcws⟩ := classify_ws_head s n1 hfft
      exact hc c (by rw [hs]; rfl) hcws

/-- Witness for C3 at the buffer `ab`. -/
theorem C3_whitespace_only_at_head_witness :
    ((∀ u ∈ ([⟨['a', 'b'], ['a', 'b'], 0, 0, 0, 0,
        TokenCategory.Alphanumeric⟩] : List Token).tail,
      u.category ≠ TokenCategory.Whitespace) ∧
    ([⟨['a', 'b'], ['a', 'b'], 0, 0, 0, 0,
        TokenCategory.Alphanumeric⟩] : List Token).countP
      (fun u => decide (u.category = TokenCategory.Whitespace)) ≤ 1) ∧
    (⟨['a', 'b'], ['a', 'b'], 0, 0, 0, 0,
        TokenCategory.Alphanumeric⟩ : Token).get_tokens =
      some [⟨['a', 'b'], ['a', 'b'], 0, 0, 0, 0, TokenCategory.Alphanumeric⟩] :=
  ⟨C3_whitespace_only_at_head.1 _ _ giw_ab,
    C3_whitespace_only_at_head.2.2 ['a', 'b'] _ _ (by decide)
      (by
        intro c hcc
        injection hcc with hcc'
        subst hcc'
        decide)
      giw_ab⟩

/-- C9: every token the embedding produces — by `Token.fromList`, by either
side of `split_at` (hence by `next_pair`, whose output is a `split_at`
output), or by the tokenizing functions — has non-empty text, an index inside
the buffer, and `line_start + col = index`; one split step strictly increases
the index and never decreases the row from left part to remainder, and along
the produced token list indices are strictly increasing and rows
non-decreasing. -/
theorem C9_token_invariants :
    (∀ s t, Token.fromList s = some t →
      t.string ≠ [] ∧ t.index < t.buffer.length ∧
        t.line_start + t.col = t.index) ∧
    (∀ (t : Token) (offset : Nat) (a : Token) (ob : Option Token),
      t.split_at offset = some (a, ob) →
      (a.string ≠ [] ∧ a.index < a.buffer.length ∧
        a.line_start + a.col = a.index) ∧
      ∀ b, ob = some b →
        (b.string ≠ [] ∧ b.index < b.buffer.length ∧
          b.line_start + b.col = b.index) ∧
        a.index < b.index ∧ a.row ≤ b.row) ∧
    (∀ (t tok : Token) (ob : Option Token), t.next_pair = some (tok, ob) →
      ∃ offset, t.split_at offset = some (tok, ob)) ∧
    (∀ (t : Token) (l : List Token),
      t.get_tokens_including_whitespace = some l →
      (∀ u ∈ l, u.string ≠ [] ∧ u.index < u.buffer.length ∧
        u.line_start + u.col = u.index) ∧
      l.Pairwise (fun u v => u.index < v.index ∧ u.row ≤ v.row)) ∧
    (∀ (t : Token) (l : List Token), t.get_tokens = some l →
      ∀ u ∈ l, u.string ≠ [] ∧ u.index < u.buffer.length ∧
        u.line_start + u.col = u.index) := by
  refine ⟨?_, ?_, ?_, ?_, ?_⟩
  · intro s t h
    exact wf_props t (fromList_inv s t h).2.2.2.2.2.2.2
  · intro t offset a ob h
    obtain ⟨-, hpos, -, ha, hawf, hrest⟩ := split_at_inv t offset a ob h
    refine ⟨wf_props a hawf, ?_⟩
    intro b hb
    subst hb
    rcases hrest with ⟨hne, -⟩ | ⟨b', cat', hob', -, -, hb', hbwf⟩
    · cases hne
    · have hbb : b = splitRight t offset cat' := by
        injection hob' with h'
        rw [h']
        exact hb'
      have hwfb : (splitRight t offset cat').wf := hb' ▸ hbwf
      subst hbb
      refine ⟨wf_props _ hwfb, ?_, ?_⟩
      · rw [ha]
        simp only [splitLeft_index, splitRight_index]
        omega
      · rw [ha]
        simp only [splitLeft_row, splitRight_row]
        omega
  · intro t tok ob h
    obtain ⟨-, cat, offset, -, hsplit⟩ := next_pair_inv t tok ob h
    exact ⟨offset, hsplit⟩
  · intro t l h
    obtain ⟨-, hmem, hpw⟩ := giw_invariant t.string.length t l le_rfl h
    exact ⟨fun u hu => wf_props u (hmem u hu).1, hpw⟩
  · intro t l h
    unfold Token.get_tokens at h
    rcases hg : t.get_tokens_including_whitespace with - | l2
    · rw [hg] at h
      cases h
    · rw [hg] at h
      simp only [Option.map_some'] at h
      injection h with h'
      subst h'
      intro u hu
      obtain ⟨-, hmem, -⟩ := giw_invariant t.string.length t l2 le_rfl hg
      exact wf_props u (hmem u (List.mem_of_mem_filter hu)).1

/-- Witness for C9 at the buffer `ab` and one concrete split. -/
theorem C9_token_invariants_witness :
    ((⟨['a', 'b'], ['a', 'b'], 0, 0, 0, 0,
        TokenCategory.Alphanumeric⟩ : Token).string ≠ [] ∧
      (⟨['a', 'b'], ['a', 'b'], 0, 0, 0, 0,
        TokenCategory.Alphanumeric⟩ : Token).index <
        (⟨['a', 'b'], ['a', 'b'], 0, 0, 0, 0,
          TokenCategory.Alphanumeric⟩ : Token).buffer.length ∧
      (⟨['a', 'b'], ['a', 'b'], 0, 0, 0, 0,
        TokenCategory.Alphanumeric⟩ : Token).line_start +
        (⟨['a', 'b'], ['a', 'b'], 0, 0, 0, 0,
          TokenCategory.Alphanumeric⟩ : Token).col =
        (⟨['a', 'b'], ['a', 'b'], 0, 0, 0, 0,
          TokenCategory.Alphanumeric⟩ : Token).index) ∧
    ((∀ u ∈ ([⟨['a', 'b'], ['a', 'b'], 0, 0, 0, 0,
        TokenCategory.Alphanumeric⟩] : List Token),
      u.string ≠ [] ∧ u.index < u.buffer.length ∧
        u.line_start + u.col = u.index) ∧
    ([⟨['a', 'b'], ['a', 'b'], 0, 0, 0, 0,
        TokenCategory.Alphanumeric⟩] : List Token).Pairwise
      (fun u v => u.index < v.index ∧ u.row ≤ v.row)) :=
  ⟨C9_token_invariants.1 ['a', 'b']
      ⟨['a', 'b'], ['a', 'b'], 0, 0, 0, 0, TokenCategory.Alphanumeric⟩
      (by decide),
    C9_token_invariants.2.2.2.1 _ _ giw_ab⟩

/-- C1: the coverage property fails on the code.  For the buffer `a b` the
whitespace-inclusive tokenization succeeds but returns only the texts `a` and
`b`: the interior whitespace token is dropped (the recursion routes the
remainder through `get_tokens`), so the concatenation of the returned texts
is `ab`, not the original buffer. -/
theorem C1_whitespace_dropped :
    (Token.fromList ['a', ' ', 'b']).bind
        (fun t => t.get_strings_including_whitespace) = some [['a'], ['b']] ∧
    List.flatten [['a'], ['b']] ≠ ['a', ' ', 'b'] := by
  constructor
  · have hf : Token.fromList ['a', ' ', 'b'] =
        some ⟨['a', ' ', 'b'], ['a', ' ', 'b'], 0, 0, 0, 0,
          TokenCategory.Alphanumeric⟩ := by decide
    rw [hf]
    show (⟨['a', ' ', 'b'], ['a', ' ', 'b'], 0, 0, 0, 0,
      TokenCategory.Alphanumeric⟩ : Token).get_strings_including_whitespace =
      some [['a'], ['b']]
    unfold Token.get_strings_including_whitespace
    rw [giw_a_space_b]
    rfl
  · decide

/-- C2: idempotent re-tokenization fails on the code.  Tokenizing `a b`
yields the texts `a`, `b`; tokenizing their concatenation `ab` yields the
single text `ab`, a different sequence. -/
theorem C2_retokenization_differs :
    (Token.fromList ['a', ' ', 'b']).bind
        (fun t => t.get_strings_including_whitespace) = some [['a'], ['b']] ∧
    (Token.fromList (List.flatten [['a'], ['b']])).bind
        (fun t => t.get_strings_including_whitespace) = some [['a', 'b']] ∧
    ([['a', 'b']] : List (List Char)) ≠ [['a'], ['b']] := by
  refine ⟨?_, ?_, by decide⟩
  · have hf : Token.fromList ['a', ' ', 'b'] =
        some ⟨['a', ' ', 'b'], ['a', ' ', 'b'], 0, 0, 0, 0,
          TokenCategory.Alphanumeric⟩ := by decide
    rw [hf]
    show (⟨['a', ' ', 'b'], ['a', ' ', 'b'], 0, 0, 0, 0,
      TokenCategory.Alphanumeric⟩ : Token).get_strings_including_whitespace =
      some [['a'], ['b']]
    unfold Token.get_strings_including_whitespace
    rw [giw_a_space_b]
    rfl
  · have hf : Token.fromList (List.flatten [['a'], ['b']]) =
        some ⟨['a', 'b'], ['a', 'b'], 0, 0, 0, 0,
          TokenCategory.Alphanumeric⟩ := by decide
    rw [hf]
    show (⟨['a', 'b'], ['a', 'b'], 0, 0, 0, 0,
      TokenCategory.Alphanumeric⟩ : Token).get_strings_including_whitespace =
      some [['a', 'b']]
    unfold Token.get_strings_including_whitespace
    rw [giw_ab]
    rfl

end Tokens
